import Mathlib

/-!
Formal model of the announcement store and proof-tree builder of
packetcrypt_rs (`src/packetcrypt-blkmine/src/prooftree.rs` and
`src/packetcrypt-blkmine/src/ann_store.rs`).

Machine integers are modelled as `Nat` with explicit wrap-around where it
matters; 32-byte hashes are byte lists; external primitives (the pairwise
node-combine `ProofTree_hashPair`, the degrade function
`pc_degrade_announcement_target`, the external `AnnClass`/`AnnBufSz` buffer
layer) are parameters or abstract records, matching the spec's
external-interface boundary.  Rust panics (`panic!`/`assert!`/`unwrap` on
`None`, out-of-bounds slicing) are modelled as a distinguished outcome,
separate from returned `Err` values.
-/

namespace Packetcrypt

/-- Little-endian byte encoding: `w` bytes of the value `v` (mirrors
`put_u32_le` / `put_u64_le` of the `bytes` crate used in `get_commit`). -/
def leBytes (w : Nat) (v : Nat) : List Nat :=
  (List.range w).map fun i => v / 256 ^ i % 256

/-- Read the first 8 bytes of a hash as a little-endian 64-bit value
(the `.to_u64()` used on announcement hashes in `prooftree.rs`). -/
def toU64 (h : List Nat) : Nat :=
  (h.take 8).foldr (fun b acc => b + 256 * acc) 0

/-- One element of `ProofTree.ann_data` (`AnnData` in `types.rs`): the 64-bit
hash prefix used for sorting/dedup and the backing-store location `mloc`. -/
structure AnnData where
  hash_pfx : Nat
  mloc : Nat
deriving DecidableEq

/-- `ProofTree_Entry_t`: a 32-byte hash plus the half-open interval
`[start, end)` over the 64-bit prefix space.  `end` is a Lean keyword, so the
field is spelled `end_`. -/
structure Entry where
  hash : List Nat
  start : Nat
  end_ : Nat
deriving DecidableEq

/-- The backing store (`DataBuf`): maps a location index to the announcement's
32-byte hash (`db.get_hash(mloc)`). -/
structure DataBuf where
  get_hash : Nat → List Nat

/-- `u64::MAX` = `0xffffffffffffffff`. -/
def U64MAX : Nat := 0xffffffffffffffff

/-- The static `FFF_ENTRY` of `prooftree.rs`: hash all `0xff`, and the
collapsed interval `start = end = u64::MAX`. -/
def FFF_ENTRY : Entry :=
  { hash := List.replicate 32 0xff, start := U64MAX, end_ := U64MAX }

/-- The hash of the static `ZERO_ENTRY` of `prooftree.rs` (all zero). -/
def ZERO_HASH : List Nat := List.replicate 32 0

/-- The observable state of a `ProofTree`.  `tbl` is the scratch entry table;
after a successful `compute` it holds, in order, the zero sentinel, the
surviving leaves, and the upper tree layers (each layer padded with
`FFF_ENTRY` when odd, exactly as the flat Rust table is laid out). -/
structure ProofTree where
  capacity : Nat
  size : Nat
  root_hash : Option (List Nat)
  ann_data : List AnnData
  index_table : List Nat
  tbl : List Entry
deriving DecidableEq

/-- Outcome of a call that can return `Err`, panic, or succeed mutating the
receiver. -/
inductive CStatus where
  | err (msg : String)
  | panicked
  | ok
deriving DecidableEq

/-- Comparison used by `par_sort_unstable_by_key(|a| a.hash_pfx)`. -/
def annLE (a b : AnnData) : Prop := a.hash_pfx ≤ b.hash_pfx

instance : DecidableRel annLE :=
  fun a b => inferInstanceAs (Decidable (a.hash_pfx ≤ b.hash_pfx))

instance : IsTotal AnnData annLE := ⟨fun a b => Nat.le_total a.hash_pfx b.hash_pfx⟩

instance : IsTrans AnnData annLE := ⟨fun _ _ _ h1 h2 => Nat.le_trans h1 h2⟩

/-- The sort step of `compute`: sort the first `count` announcements by their
64-bit hash prefix. -/
def sortAnns (l : List AnnData) : List AnnData := List.insertionSort annLE l

/-- The dedup scan of `compute`, building the index table: `last_pfx` starts
at 0; an entry whose prefix equals the previous surviving prefix is dropped,
a strictly smaller prefix is the `panic!("list not sorted ...")` (modelled as
`none`), otherwise the entry survives and contributes its `mloc`. -/
def dedupScan : Nat → List AnnData → Option (List Nat)
  | _, [] => some []
  | last, d :: ds =>
    if d.hash_pfx = last then dedupScan last ds
    else if d.hash_pfx < last then none
    else (dedupScan d.hash_pfx ds).map fun ms => d.mloc :: ms

/-- The leaf-building loop of `compute` over the index table: leaf `i` gets
the hash at `index_table[i]`, `start` is that hash's 64-bit prefix, and `end`
is the next surviving hash's prefix, or `u64::MAX` for the last leaf. -/
def mkLeaves (db : DataBuf) : List Nat → List Entry
  | [] => []
  | [m] =>
    let h := db.get_hash m
    [{ hash := h, start := toU64 h, end_ := U64MAX }]
  | m :: m2 :: rest =>
    let h := db.get_hash m
    { hash := h, start := toU64 h, end_ := toU64 (db.get_hash m2) } ::
      mkLeaves db (m2 :: rest)

/-- The leaf entry the per-entry loop of `compute` writes for location `m`
when the next surviving location is `m2` (its interval end is the successor
hash's prefix). -/
def leafOf (db : DataBuf) (m m2 : Nat) : Entry :=
  { hash := db.get_hash m, start := toU64 (db.get_hash m),
    end_ := toU64 (db.get_hash m2) }

/-- Combine adjacent pairs of a layer with the external node-combine
primitive `ProofTree_hashPair` (abstracted as `hp`). -/
def pairUp (hp : Entry → Entry → Entry) : List Entry → List Entry
  | a :: b :: rest => hp a b :: pairUp hp rest
  | _ => []

/-- The bottom-up layer loop of `compute` (`while count_this_layer > 1`).
Returns the entries appended to the table above the leaf layer: for each
round, the `FFF_ENTRY` padding (when the layer count is odd) followed by the
parents.  The `assert!(tbl[odx-1].end == u64::MAX)` at the head of each round
is modelled as the `getLast?` check; `none` models a panic.  The `fuel`
argument only drives the recursion; `computeCore` supplies enough for the
halving loop to reach a single root. -/
def upperAux (hp : Entry → Entry → Entry) : Nat → List Entry → Option (List Entry)
  | 0, l => if l.length ≤ 1 then some [] else none
  | fuel + 1, l =>
    if l.length ≤ 1 then some []
    else if l.getLast?.map Entry.end_ = some U64MAX then
      let padded := if l.length % 2 = 1 then l ++ [FFF_ENTRY] else l
      let parents := pairUp hp padded
      match upperAux hp fuel parents with
      | none => none
      | some rest => some (padded.drop l.length ++ parents ++ rest)
    else none

/-- `tbl[0] = ZERO_ENTRY; tbl[0].end = tbl[1].start`: the zero sentinel
entry, covering `[0, first survivor's prefix)`. -/
def sentinelOf (l1 : Entry) : Entry :=
  { hash := ZERO_HASH, start := 0, end_ := l1.start }

/-- The final root checks of `compute`: `assert!(tbl[idx].start == 0 &&
tbl[idx].end == u64::MAX)` on the last entry written (the root), and the
root-hash extraction of `ProofTree_complete2` (the root entry's hash).
`none` models the assert panic. -/
def finishTbl (tblAll : List Entry) (it : List Nat) :
    Option (List Entry × List Nat × List Nat) :=
  match tblAll.getLast? with
  | some root =>
    if root.start = 0 ∧ root.end_ = U64MAX then some (tblAll, it, root.hash)
    else none
  | none => none

/-- The body of `compute` after the three recoverable error checks, applied
to the already-sorted announcement list: dedup into the index table; build
the leaves (panic if the index table is empty, since `tbl[0].end = tbl[1].start`
would read an entry that was never written); assert `end > start` on every
leaf and on the zero sentinel; build the upper layers; and check the final
root asserts.  On success, returns the full table, the index table, and the
root hash. -/
def computeCore (hp : Entry → Entry → Entry) (db : DataBuf) (sorted : List AnnData) :
    Option (List Entry × List Nat × List Nat) :=
  match dedupScan 0 sorted with
  | none => none
  | some it =>
    match mkLeaves db it with
    | [] => none
    | l1 :: ls =>
      if (∀ e ∈ l1 :: ls, e.start < e.end_) ∧ 0 < l1.start then
        match upperAux hp (l1 :: ls).length.succ (sentinelOf l1 :: l1 :: ls) with
        | none => none
        | some upper => finishTbl (sentinelOf l1 :: l1 :: ls ++ upper) it
      else none

/-- `ProofTree::reset`: clears `size` and `root_hash` only. -/
def ProofTree.reset (t : ProofTree) : ProofTree :=
  { t with size := 0, root_hash := none }

/-- `ProofTree::compute(count)`.  `hp` is the external `ProofTree_hashPair`
primitive, `db` the backing store.  The three recoverable errors are returned
with the state untouched (in Rust the checks precede every mutation); a
panic is reported as `CStatus.panicked` (the state a panic leaves behind is
not used by any claim). -/
def ProofTree.compute (hp : Entry → Entry → Entry) (db : DataBuf) (t : ProofTree)
    (count : Nat) : CStatus × ProofTree :=
  if t.root_hash.isSome then (.err "tree is in computed state, call reset() first", t)
  else if count = 0 then (.err "no anns, cannot compute tree", t)
  else if t.capacity < count then (.err "too many anns", t)
  else
    match computeCore hp db (sortAnns (t.ann_data.take count)) with
    | none =>
      (.panicked,
        { t with ann_data := sortAnns (t.ann_data.take count) ++ t.ann_data.drop count })
    | some (tblAll, it, rh) =>
      (.ok, { t with
              ann_data := sortAnns (t.ann_data.take count) ++ t.ann_data.drop count,
              index_table := it,
              tbl := tblAll,
              root_hash := some rh,
              size := it.length })

/-- `ProofTree::get_commit(ann_min_work)`: the fixed magic `09 F9 11 02`,
the minimum work little-endian, the root hash, and `size` as a little-endian
64-bit value. -/
def ProofTree.get_commit (t : ProofTree) (ann_min_work : Nat) : Except String (List Nat) :=
  match t.root_hash with
  | none => .error "Not in computed state, call compute() first"
  | some h =>
    .ok ([0x09, 0xf9, 0x11, 0x02] ++ leBytes 4 ann_min_work ++ h ++ leBytes 8 t.size)

/-- Modelled from the spec: the external multi-leaf proof-construction
primitive `ProofTree_mkProof` (in `packetcrypt_sys`, not under `src/`).  Per
the spec it takes the entry table, the leaf count, the root hash and the four
announcement indices, and returns an owned byte proof, non-empty whenever the
indices are valid.  Its exact byte layout is opaque to this repository, so it
is modelled as a deterministic concatenation of its inputs, which always
begins with the 8 length bytes and hence is never empty. -/
def mkProofPrim (tbl : List Entry) (leafCount : Nat) (root : List Nat)
    (ns : List Nat) : List Nat :=
  leBytes 8 leafCount ++ root ++ (ns.map (leBytes 8)).flatten ++ (tbl.map Entry.hash).flatten

/-- `ProofTree::mk_proof(ann_nums)`: requires a computed tree, rejects any
index `>= size`, and otherwise delegates to the external proof primitive over
the table, `index_table.len() + 1` leaves, and the root hash. -/
def ProofTree.mk_proof (t : ProofTree) (ns : List Nat) : Except String (List Nat) :=
  match t.root_hash with
  | none => .error "Not in computed state, call compute() first"
  | some rh =>
    if ns.any fun n => decide (t.size ≤ n) then .error "Ann number out of range"
    else .ok (mkProofPrim t.tbl (t.index_table.length + 1) rh ns)

/-! The announcement store (`ann_store.rs`).  `HeightWork` is the composite
key; `AnnClass` is the external class/buffer layer, modelled as a record of
the behaviours `ann_store.rs` consumes: the current ready-count
(`ready_anns`), the age-adjusted effective work (`ann_effective_work`,
a function of the target next height), the outcome of one `steal_buf`
attempt, the number of announcement indexes one `push_anns` call accepts, and
the attached buffers (buffers are opaque and modelled by `Nat` identity).
The class-internal fill state is owned by the external layer and is not
re-modelled, so `pushN`/`ready` are fixed behaviours of the snapshot. -/

structure HeightWork where
  block_height : Int
  work : Nat
deriving DecidableEq

/-- The read-only `ClassInfo` snapshot produced by `ready_classes`. -/
structure ClassInfo where
  hw : HeightWork
  ann_count : Nat
  ann_effective_work : Nat
deriving DecidableEq

/-- Outcome of one `AnnClass::steal_buf` attempt as consumed by
`steal_non_mining_buf`: `refuse` is `Err(_)` (buffers locked for a read),
`lastBuf b` is `Ok(None)` followed by `destroy()` yielding `b` (the class
gave up its final buffer), `giveBuf b` is `Ok(Some(b))`. -/
inductive StealR where
  | refuse
  | lastBuf (b : Nat)
  | giveBuf (b : Nat)

/-- The external `AnnClass`, abstracted to the behaviours the store uses. -/
structure AnnClass where
  ready : Nat
  eff : Nat → Nat
  steal : StealR
  pushN : Nat → Nat
  bufs : List Nat

/-- Comparison used by `ready.sort_unstable_by_key(|ci| ci.ann_effective_work)`. -/
def ciLE (a b : ClassInfo) : Prop := a.ann_effective_work ≤ b.ann_effective_work

instance : DecidableRel ciLE :=
  fun a b => inferInstanceAs (Decidable (a.ann_effective_work ≤ b.ann_effective_work))

instance : IsTotal ClassInfo ciLE :=
  ⟨fun a b => Nat.le_total a.ann_effective_work b.ann_effective_work⟩

instance : IsTrans ClassInfo ciLE := ⟨fun _ _ _ h1 h2 => Nat.le_trans h1 h2⟩

/-- The age computation of `ready_classes`:
`max(0, next_height - hw.block_height) as u32`. -/
def ageOf (next_height : Int) (hw : HeightWork) : Nat :=
  (max 0 (next_height - hw.block_height)).toNat

/-- `AnnStore::ready_classes(next_height)`.  `degrade` is the external
`pc_degrade_announcement_target`; `classes` the class map as an association
list. -/
def ready_classes (degrade : Nat → Nat → Nat) (classes : List (HeightWork × AnnClass))
    (next_height : Int) : List ClassInfo :=
  let ready :=
    ((classes.map fun p => (p.1, p.2, degrade p.1.work (ageOf next_height p.1))).filter
        fun q => decide (q.2.2 ≠ 0xffffffff)).map
      fun q => { hw := q.1, ann_count := q.2.1.ready, ann_effective_work := q.2.2 }
  List.insertionSort ciLE ready

/-- Rust's `Iterator::max_by_key`: the maximum, returning the LAST maximal
element on ties. -/
def maxByKey (f : α → Nat) : List α → Option α
  | [] => none
  | x :: xs =>
    match maxByKey f xs with
    | none => some x
    | some y => some (if f y < f x then x else y)

/-- The candidate filter of `steal_non_mining_buf`:
classes whose key is not in the `mining` exclusion list. -/
def notMining (classes : List (HeightWork × AnnClass)) (mining : List HeightWork) :
    List (HeightWork × AnnClass) :=
  classes.filter fun p => decide (p.1 ∉ mining)

/-- The loop of `steal_non_mining_buf`.  `none` models the fatal `.unwrap()`
panic when every class is excluded and `max_by_key` returns `None`.  The
`fuel` argument only drives the recursion (each `refuse` round excludes one
more key, so `classes.length + 1` rounds always suffice). -/
def stealAux (next_h : Nat) : Nat → List (HeightWork × AnnClass) → List HeightWork →
    Option (Nat × List (HeightWork × AnnClass))
  | 0, _, _ => none
  | fuel + 1, classes, mining =>
    match maxByKey (fun p => p.2.eff next_h) (notMining classes mining) with
    | none => none
    | some (key, worst) =>
      match worst.steal with
      | .refuse => stealAux next_h fuel classes (mining ++ [key])
      | .lastBuf b => some (b, classes.eraseP fun p => decide (p.1 = key))
      | .giveBuf b => some (b, classes)

/-- `steal_non_mining_buf(m, next_block_height)`:
run the loop starting from an empty exclusion list. -/
def steal_non_mining_buf (classes : List (HeightWork × AnnClass)) (next_h : Nat) :
    Option (Nat × List (HeightWork × AnnClass)) :=
  stealAux next_h (classes.length + 1) classes []

/-- The lock-protected store state: the class map (an ordered association
list keyed by `HeightWork`) and the recent-blocks map (keyed by height). -/
structure AnnStoreMut where
  classes : List (HeightWork × AnnClass)
  recent_blocks : List (Int × List Nat)

/-- `m.classes.get(&hw)`. -/
def lookupClass (classes : List (HeightWork × AnnClass)) (hw : HeightWork) :
    Option AnnClass :=
  (classes.find? fun p => decide (p.1 = hw)).map (·.2)

/-- `AnnStore::block(height, hash)`: record a chain-tip observation
(`HashMap::insert` replaces any entry at the same height). -/
def AnnStore.block (m : AnnStoreMut) (height : Int) (hash : List Nat) : AnnStoreMut :=
  { m with recent_blocks :=
      (height, hash) :: m.recent_blocks.filter fun p => decide (p.1 ≠ height) }

/-- The `as u32` cast of an `i32` (two's-complement reinterpretation). -/
def i32AsU32 (x : Int) : Nat := (x % 2 ^ 32).toNat

/-- Outcome of `push_anns`: normal return, the `unwrap` panic on
`recent_blocks.keys().max()` when the map is empty, the fatal panic inside
the stealing loop, or exhausted fuel (the Rust loop has no intrinsic bound;
no claim depends on its termination). -/
inductive PushOutcome where
  | done (m : AnnStoreMut)
  | panicHeight
  | panicSteal
  | fuelOut

/-- `AnnClass::add_buf`. -/
def addBuf (c : AnnClass) (b : Nat) : AnnClass := { c with bufs := c.bufs ++ [b] }

/-- One `class.push_anns(anns, indexes)` attempt of the `push_anns` loop:
`none` means the whole remaining batch fit (the early `return`), `some nRem`
the number of indexes still to place (also when no class exists for the
key). -/
def pushFit (c? : Option AnnClass) (nIdx : Nat) : Option Nat :=
  match c? with
  | some c => if c.pushN nIdx = nIdx then none else some (nIdx - c.pushN nIdx)
  | none => some nIdx

/-- The `next_block_height` resolution of the `push_anns` loop: keep a
memoised height, otherwise `1 + recent_blocks.keys().max().unwrap() as u32`
(where `none` is the `unwrap` panic on an empty map). -/
def nextHeightOf (m : AnnStoreMut) : Option Nat → Option Nat
  | some h => some h
  | none => (m.recent_blocks.map Prod.fst).max?.map
      fun mx => (1 + i32AsU32 mx) % 2 ^ 32

/-- Attach a stolen buffer to the `hw` class, creating the class with
`AnnClass::with_topbuf` (`mkc`) when absent. -/
def attachStolen (mkc : Nat → AnnClass) (classes1 : List (HeightWork × AnnClass))
    (hw : HeightWork) (buf : Nat) : List (HeightWork × AnnClass) :=
  match lookupClass classes1 hw with
  | some _ => classes1.map fun (p : HeightWork × AnnClass) =>
      if p.1 = hw then (p.1, addBuf p.2 buf) else p
  | none => (hw, mkc buf) :: classes1

/-- The loop of `AnnStore::push_anns(hw, ac)`.  `mkc` is the external
`AnnClass::with_topbuf` constructor; `nIdx` the number of remaining indexes
of the chunk; `nbh0` the memoised `next_block_height` option.  Each round:
write as much of the batch as the `hw` class accepts and return if all fit;
otherwise resolve the default next height (panicking when no block was ever
recorded), steal a buffer, attach it to the `hw` class and retry. -/
def push_anns_aux (mkc : Nat → AnnClass) :
    Nat → AnnStoreMut → HeightWork → Nat → Option Nat → PushOutcome
  | 0, _, _, _, _ => .fuelOut
  | fuel + 1, m, hw, nIdx, nbh0 =>
    match pushFit (lookupClass m.classes hw) nIdx with
    | none => .done m
    | some nRem =>
      match nextHeightOf m nbh0 with
      | none => .panicHeight
      | some h =>
        match stealAux h (m.classes.length + 1) m.classes [] with
        | none => .panicSteal
        | some (buf, classes1) =>
          push_anns_aux mkc fuel { m with classes := attachStolen mkc classes1 hw buf }
            hw nRem (some h)

/-- `AnnStore::push_anns(hw, ac)` with `ac.indexes.len() = nIdx`:
the loop starts with `next_block_height = None`. -/
def push_anns (mkc : Nat → AnnClass) (fuel : Nat) (m : AnnStoreMut) (hw : HeightWork)
    (nIdx : Nat) : PushOutcome :=
  push_anns_aux mkc fuel m hw nIdx none

/-- The `split_at_mut` loop of `compute_tree`, tracking only the length of
the remaining `out` slice: splitting off `r` elements panics (out of bounds)
when `r` exceeds the remaining length. -/
def splitAtLen : Nat → List Nat → Option Nat
  | len, [] => some len
  | len, r :: rs => if r ≤ len then splitAtLen (len - r) rs else none

/-- `AnnStore::compute_tree(set, pt)` up to the final `pt.compute` call,
which consumes the assembled buffer.  `none` models a panic: either the
indexing panic `m.classes[hw]` for a key naming no class, or the
`split_at_mut` out-of-bounds panic.  NOTE the faithful detail that decides
claim C3: the Rust code builds the flat hash buffer with
`Vec::with_capacity(total_anns)`, which allocates capacity but leaves the
vector LENGTH at 0, and then slices `&mut buffer[..]` (an empty slice), so
the split loop is run against a length-0 buffer, not one of length
`total_anns`.  On success returns the per-class region sizes (the ready
counts). -/
def compute_tree (classes : List (HeightWork × AnnClass)) (set : List HeightWork) :
    Option (List Nat) :=
  match set.mapM (lookupClass classes) with
  | none => none
  | some cs =>
    let rs := cs.map AnnClass.ready
    let bufferLen : Nat := 0
    match splitAtLen bufferLen rs with
    | none => none
    | some _ => some rs

/-- A concrete instantiation of the external node-combine primitive, used to
evaluate the model on closed inputs: the parent hash is the two child hashes
appended, and the parent interval spans the children (which is what the
asserts in `prooftree.rs` check of `ProofTree_hashPair`). -/
def hpPair (a b : Entry) : Entry :=
  { hash := a.hash ++ b.hash, start := a.start, end_ := b.end_ }

/-- A concrete backing store for closed-input checks: location `m` holds the
8-byte little-endian encoding of `m + 1`, so its 64-bit prefix is `m + 1`. -/
def dbLin : DataBuf := ⟨fun m => leBytes 8 (m + 1)⟩

/-- A concrete backing store whose location 0 hashes to prefix 0 and
location 1 to prefix 5 (used against the dedup claims). -/
def dbZero : DataBuf := ⟨fun m => leBytes 8 (5 * m)⟩

/-- A concrete backing store where every location has 64-bit prefix 7 but
distinct full hashes (a 64-bit-prefix collision between distinct
announcements). -/
def dbCollide : DataBuf := ⟨fun m => leBytes 8 7 ++ [m]⟩

/-- A fresh two-announcement tree with distinct nonzero prefixes 1 and 2
(consistent with `dbLin`). -/
def tA : ProofTree :=
  { capacity := 2, size := 0, root_hash := none,
    ann_data := [⟨1, 0⟩, ⟨2, 1⟩], index_table := [], tbl := [] }

/-- The state of `tA` after a successful `compute` with `hpPair`/`dbLin`. -/
def tA2 : ProofTree := (ProofTree.compute hpPair dbLin tA 2).2

/-- A fresh tree whose first announcement has 64-bit prefix 0 (consistent
with `dbZero`). -/
def tZ : ProofTree :=
  { capacity := 8, size := 0, root_hash := none,
    ann_data := [⟨0, 0⟩, ⟨5, 1⟩], index_table := [], tbl := [] }

/-- A fresh tree with two announcements whose 64-bit prefixes collide
(consistent with `dbCollide`). -/
def tC : ProofTree :=
  { capacity := 8, size := 0, root_hash := none,
    ann_data := [⟨7, 0⟩, ⟨7, 1⟩], index_table := [], tbl := [] }

/-- `tC` with the two colliding announcements swapped. -/
def tCp : ProofTree := { tC with ann_data := [⟨7, 1⟩, ⟨7, 0⟩] }

/-- A tree in computed state (`root_hash` set to a 32-byte hash, one
surviving announcement). -/
def tC1 : ProofTree :=
  { capacity := 8, size := 1, root_hash := some (List.replicate 32 7),
    ann_data := [], index_table := [0], tbl := [] }

/-- A concrete class with `r` ready announcements (other behaviours inert). -/
def clsR (r : Nat) : AnnClass :=
  { ready := r, eff := fun _ => 0, steal := .refuse, pushN := fun _ => 0, bufs := [] }

/-- A concrete class with constant effective work `e` and steal outcome `s`. -/
def clsE (e : Nat) (s : StealR) : AnnClass :=
  { ready := 0, eff := fun _ => e, steal := s, pushN := fun _ => 0, bufs := [] }

/-- A concrete `HeightWork` key. -/
def hwA : HeightWork := ⟨3, 5⟩

/-- Another concrete `HeightWork` key. -/
def hwB : HeightWork := ⟨4, 6⟩

/-- A concrete degrade function for closed checks: work plus age. -/
def degradeW (w age : Nat) : Nat := w + age

/-- A concrete two-class store for exercising the stealing policy: the
least valuable class (`hwB`, effective work 99) refuses, the other gives
buffer 42. -/
def classesW8 : List (HeightWork × AnnClass) :=
  [(hwA, clsE 10 (.giveBuf 42)), (hwB, clsE 99 .refuse)]

/-- A concrete class constructor (`AnnClass::with_topbuf`) for closed
checks. -/
def mkcW : Nat → AnnClass :=
  fun b => { ready := 0, eff := fun _ => 0, steal := .refuse, pushN := fun _ => 0, bufs := [b] }

/-- A store that has never seen a `block` call (`recent_blocks` empty). -/
def m0 : AnnStoreMut := { classes := [], recent_blocks := [] }

/-- A store with one recorded block at height 5. -/
def m1 : AnnStoreMut := { classes := [], recent_blocks := [(5, [])] }

theorem leBytes_length (w v : Nat) : (leBytes w v).length = w := by
  simp [leBytes]

/-- C1: the claim states `get_commit` yields a buffer of exactly 44 bytes
while also placing the size at bytes 40..48.  On a concrete computed tree
the buffer has 48 bytes (4 magic + 4 work + 32 hash + 8 size), so the
44-byte part of the claim is false. -/
theorem C1_commit_not_44_bytes :
    (tC1.get_commit 3).map List.length = Except.ok 48 ∧ (48 : Nat) ≠ 44 :=
  ⟨rfl, by decide⟩

/-- C1 (amended): for every tree in computed state (`root_hash` set, 32
bytes as in the Rust type) and every 32-bit `w`, `get_commit w` returns `Ok`
with exactly 48 bytes: bytes 0..4 the magic `09 F9 11 02`, bytes 4..8 `w`
little-endian, bytes 8..40 the root hash, bytes 40..48 `size` little-endian. -/
theorem C1_get_commit_layout (t : ProofTree) (h : List Nat) (w : Nat)
    (hroot : t.root_hash = some h) (hlen : h.length = 32) :
    ∃ buf, t.get_commit w = .ok buf ∧ buf.length = 48 ∧
      buf.take 4 = [0x09, 0xf9, 0x11, 0x02] ∧
      (buf.drop 4).take 4 = leBytes 4 w ∧
      (buf.drop 8).take 32 = h ∧
      buf.drop 40 = leBytes 8 t.size := by
  refine ⟨[0x09, 0xf9, 0x11, 0x02] ++ leBytes 4 w ++ h ++ leBytes 8 t.size,
    by simp [ProofTree.get_commit, hroot], ?_, ?_, ?_, ?_, ?_⟩
  · simp [leBytes_length, hlen]
  · rw [List.append_assoc, List.append_assoc, List.take_left' (by simp)]
  · rw [List.append_assoc, List.append_assoc, List.drop_left' (by simp),
      List.take_left' (leBytes_length 4 w)]
  · rw [List.append_assoc, List.drop_left' (by simp [leBytes_length]),
      List.take_left' hlen]
  · rw [List.drop_left' (by simp [leBytes_length, hlen])]

/-- C1 witness: the amended layout theorem applied to the concrete computed
tree `tC1` and `w = 3`. -/
theorem C1_get_commit_layout_witness :
    tC1.root_hash = some (List.replicate 32 7) ∧
    (List.replicate 32 (7 : Nat)).length = 32 ∧
    ∃ buf, tC1.get_commit 3 = .ok buf ∧ buf.length = 48 ∧
      buf.take 4 = [0x09, 0xf9, 0x11, 0x02] ∧
      (buf.drop 4).take 4 = leBytes 4 3 ∧
      (buf.drop 8).take 32 = List.replicate 32 7 ∧
      buf.drop 40 = leBytes 8 tC1.size :=
  ⟨rfl, by decide, C1_get_commit_layout tC1 (List.replicate 32 7) 3 rfl (by decide)⟩

/-- C5: `compute(count)` returns a recoverable error exactly when the tree
is already computed, the count is zero, or the count exceeds the capacity;
and on every such error the tree state is returned unchanged (no partial
root is exposed).  All other failures are panics, not errors. -/
theorem C5_compute_errors (hp : Entry → Entry → Entry) (db : DataBuf) (t : ProofTree)
    (count : Nat) :
    ((∃ e, (ProofTree.compute hp db t count).1 = .err e) ↔
      (t.root_hash.isSome ∨ count = 0 ∨ t.capacity < count)) ∧
    (∀ e, (ProofTree.compute hp db t count).1 = .err e →
      (ProofTree.compute hp db t count).2 = t) := by
  unfold ProofTree.compute
  split_ifs with h1 h2 h3
  · exact ⟨by simp [h1], fun _ _ => rfl⟩
  · exact ⟨by simp [h2], fun _ _ => rfl⟩
  · exact ⟨by simp [h3], fun _ _ => rfl⟩
  · cases hcc : computeCore hp db (sortAnns (t.ann_data.take count)) with
    | none => exact ⟨by simp [hcc, h1, h2, h3], by simp [hcc]⟩
    | some v =>
      obtain ⟨tblAll, it, rh⟩ := v
      exact ⟨by simp [hcc, h1, h2, h3], by simp [hcc]⟩

/-- C5 witness: on the already-computed tree `tC1`, `compute` returns the
"already computed" error and leaves the state untouched. -/
theorem C5_compute_errors_witness :
    (ProofTree.compute hpPair dbLin tC1 1).1 =
      .err "tree is in computed state, call reset() first" ∧
    (ProofTree.compute hpPair dbLin tC1 1).2 = tC1 :=
  ⟨rfl, (C5_compute_errors hpPair dbLin tC1 1).2 _ rfl⟩

/-- C9: `mk_proof` fails when the tree is not computed; on a computed tree
it fails with the out-of-range error when any of the four indices reaches
`size`, and returns a non-empty owned buffer when all four indices are below
`size`. -/
theorem C9_mk_proof (t : ProofTree) (ns : List Nat) (_hlen4 : ns.length = 4) :
    (t.root_hash = none → ∃ e, t.mk_proof ns = .error e) ∧
    (∀ rh, t.root_hash = some rh → (∃ n ∈ ns, t.size ≤ n) →
      t.mk_proof ns = .error "Ann number out of range") ∧
    (∀ rh, t.root_hash = some rh → (∀ n ∈ ns, n < t.size) →
      ∃ buf, t.mk_proof ns = .ok buf ∧ buf ≠ []) := by
  refine ⟨?_, ?_, ?_⟩
  · intro h
    exact ⟨"Not in computed state, call compute() first", by simp [ProofTree.mk_proof, h]⟩
  · intro rh h hex
    have hany : (ns.any fun n => decide (t.size ≤ n)) = true := by
      simpa [List.any_eq_true] using hex
    simp [ProofTree.mk_proof, h, hany]
  · intro rh h hall
    have hany : (ns.any fun n => decide (t.size ≤ n)) = false := by
      rw [List.any_eq_false]
      intro n hn
      simpa using Nat.not_le.mpr (hall n hn)
    refine ⟨mkProofPrim t.tbl (t.index_table.length + 1) rh ns,
      by simp [ProofTree.mk_proof, h, hany], ?_⟩
    intro hnil
    have hlen0 := congrArg List.length hnil
    simp [mkProofPrim, leBytes_length] at hlen0

/-- C9 witness: the theorem applied to the concrete computed tree `tC1`
with the four indices `[0, 0, 0, 0]`, all below `size = 1`. -/
theorem C9_mk_proof_witness :
    tC1.root_hash = some (List.replicate 32 7) ∧
    ∃ buf, tC1.mk_proof [0, 0, 0, 0] = .ok buf ∧ buf ≠ [] :=
  ⟨rfl, (C9_mk_proof tC1 [0, 0, 0, 0] rfl).2.2 _ rfl (by decide)⟩

/-- C3 (code bug): with one selected class holding a single ready
announcement, `compute_tree` panics: `Vec::with_capacity(total_anns)` leaves
the flat buffer with length 0, so the very first `split_at_mut(1)` is out of
bounds.  The spec says a buffer of the total length is allocated, partitioned
and filled. -/
theorem C3_compute_tree_split_panics :
    lookupClass [(hwA, clsR 1)] hwA = some (clsR 1) ∧
    (clsR 1).ready = 1 ∧
    compute_tree [(hwA, clsR 1)] [hwA] = none :=
  ⟨rfl, rfl, rfl⟩

/-- C7: `ready_classes(next_height)` computes each class's age as
`max(0, next_height - block_height)`, never includes a class whose degraded
effective work equals the sentinel `0xffffffff`, and returns the remaining
`ClassInfo` records sorted ascending by `ann_effective_work`. -/
theorem C7_ready_classes (degrade : Nat → Nat → Nat)
    (classes : List (HeightWork × AnnClass)) (next_height : Int) :
    (∀ ci ∈ ready_classes degrade classes next_height,
      ci.ann_effective_work ≠ 0xffffffff) ∧
    (ready_classes degrade classes next_height).Sorted ciLE ∧
    (∀ ci, ci ∈ ready_classes degrade classes next_height ↔
      ∃ q ∈ classes,
        degrade q.1.work (ageOf next_height q.1) ≠ 0xffffffff ∧
        ci = { hw := q.1, ann_count := q.2.ready,
               ann_effective_work := degrade q.1.work (ageOf next_height q.1) }) := by
  have hmem : ∀ ci, ci ∈ ready_classes degrade classes next_height ↔
      ∃ q ∈ classes,
        degrade q.1.work (ageOf next_height q.1) ≠ 0xffffffff ∧
        ci = { hw := q.1, ann_count := q.2.ready,
               ann_effective_work := degrade q.1.work (ageOf next_height q.1) } := by
    intro ci
    unfold ready_classes
    rw [List.mem_insertionSort]
    constructor
    · intro hci
      obtain ⟨q2, hq2, rfl⟩ := List.mem_map.mp hci
      obtain ⟨hq2m, hq2f⟩ := List.mem_filter.mp hq2
      obtain ⟨q, hq, rfl⟩ := List.mem_map.mp hq2m
      exact ⟨q, hq, by simpa using hq2f, rfl⟩
    · rintro ⟨q, hq, hne, rfl⟩
      refine List.mem_map.mpr ⟨(q.1, q.2, degrade q.1.work (ageOf next_height q.1)),
        List.mem_filter.mpr ⟨List.mem_map.mpr ⟨q, hq, rfl⟩, by simpa using hne⟩, rfl⟩
  refine ⟨?_, List.sorted_insertionSort ciLE _, hmem⟩
  intro ci hci
  obtain ⟨q, _, hne, rfl⟩ := (hmem ci).mp hci
  exact hne

/-- C7 witness: the theorem applied to a concrete one-class store at next
height 10: the class (height 3, work 5, degraded work 5 + 7 = 12) appears in
the output and its effective work is not the sentinel. -/
theorem C7_ready_classes_witness :
    (⟨hwA, 4, 12⟩ : ClassInfo) ∈ ready_classes degradeW [(hwA, clsR 4)] 10 ∧
    (⟨hwA, 4, 12⟩ : ClassInfo).ann_effective_work ≠ 0xffffffff := by
  have hm : (⟨hwA, 4, 12⟩ : ClassInfo) ∈ ready_classes degradeW [(hwA, clsR 4)] 10 := by
    refine ((C7_ready_classes degradeW [(hwA, clsR 4)] 10).2.2 _).mpr
      ⟨(hwA, clsR 4), by simp, by decide, by simp [clsR, hwA, degradeW, ageOf]⟩
  exact ⟨hm, (C7_ready_classes degradeW [(hwA, clsR 4)] 10).1 _ hm⟩

theorem maxByKey_mem {α} {f : α → Nat} {l : List α} {x : α}
    (h : maxByKey f l = some x) : x ∈ l := by
  induction l generalizing x with
  | nil => cases h
  | cons a as ih =>
    unfold maxByKey at h
    cases hm : maxByKey f as with
    | none =>
      rw [hm] at h
      simp only [Option.some.injEq] at h
      subst h
      exact List.mem_cons_self a as
    | some y =>
      rw [hm] at h
      simp only [Option.some.injEq] at h
      by_cases hf : f y < f a
      · rw [if_pos hf] at h
        subst h
        exact List.mem_cons_self a as
      · rw [if_neg hf] at h
        subst h
        exact List.mem_cons_of_mem a (ih hm)

theorem maxByKey_none {α} {f : α → Nat} {l : List α}
    (h : maxByKey f l = none) : l = [] := by
  cases l with
  | nil => rfl
  | cons a as =>
    unfold maxByKey at h
    cases hm : maxByKey f as <;> rw [hm] at h <;> cases h

theorem maxByKey_le {α} {f : α → Nat} {l : List α} {x : α}
    (h : maxByKey f l = some x) : ∀ y ∈ l, f y ≤ f x := by
  induction l generalizing x with
  | nil => cases h
  | cons a as ih =>
    intro y hy
    unfold maxByKey at h
    cases hm : maxByKey f as with
    | none =>
      rw [hm] at h
      simp only [Option.some.injEq] at h
      subst h
      rcases List.mem_cons.mp hy with rfl | hy'
      · exact Nat.le_refl _
      · rw [maxByKey_none hm] at hy'
        cases hy'
    | some z =>
      rw [hm] at h
      simp only [Option.some.injEq] at h
      rcases List.mem_cons.mp hy with rfl | hy'
      · by_cases hf : f z < f y
        · rw [if_pos hf] at h
          subst h
          exact Nat.le_refl _
        · rw [if_neg hf] at h
          subst h
          exact Nat.le_of_not_lt hf
      · have hyz := ih hm y hy'
        by_cases hf : f z < f a
        · rw [if_pos hf] at h
          subst h
          exact Nat.le_trans hyz (Nat.le_of_lt hf)
        · rw [if_neg hf] at h
          subst h
          exact hyz

/-- C8: each round of the stealing loop selects, among classes not yet
excluded, one with the numerically greatest effective work at the target
height; a refusal adds that class to the exclusion set and retries; a steal
that empties the class removes the class and returns its freed buffer, and
an ordinary steal returns the buffer directly; exhausting all classes is the
fatal `unwrap` panic (`none`), never a returned error. -/
theorem C8_steal_policy (next_h fuel : Nat)
    (classes : List (HeightWork × AnnClass)) (mining : List HeightWork) :
    (notMining classes mining = [] →
      stealAux next_h (fuel + 1) classes mining = none) ∧
    ∀ key worst,
      maxByKey (fun p => p.2.eff next_h) (notMining classes mining) = some (key, worst) →
      ((key, worst) ∈ notMining classes mining ∧
        ∀ q ∈ notMining classes mining, q.2.eff next_h ≤ worst.eff next_h) ∧
      (worst.steal = .refuse →
        stealAux next_h (fuel + 1) classes mining =
          stealAux next_h fuel classes (mining ++ [key])) ∧
      (∀ b, worst.steal = .lastBuf b →
        stealAux next_h (fuel + 1) classes mining =
          some (b, classes.eraseP fun p => decide (p.1 = key))) ∧
      (∀ b, worst.steal = .giveBuf b →
        stealAux next_h (fuel + 1) classes mining = some (b, classes)) := by
  constructor
  · intro hemp
    simp [stealAux, hemp, maxByKey]
  · intro key worst hmax
    refine ⟨⟨maxByKey_mem hmax, fun q hq => maxByKey_le hmax q hq⟩, ?_, ?_, ?_⟩
    · intro hst
      simp [stealAux, hmax, hst]
    · intro b hst
      simp [stealAux, hmax, hst]
    · intro b hst
      simp [stealAux, hmax, hst]

/-- C8 witness: in the concrete two-class store the round selects the class
with the greatest effective work (`hwB`, work 99), which refuses, so the
loop retries with `hwB` excluded. -/
theorem C8_steal_policy_witness :
    maxByKey (fun p => p.2.eff 0) (notMining classesW8 []) = some (hwB, clsE 99 .refuse) ∧
    stealAux 0 2 classesW8 [] = stealAux 0 1 classesW8 ([] ++ [hwB]) :=
  ⟨rfl, ((C8_steal_policy 0 1 classesW8 []).2 hwB (clsE 99 .refuse) rfl).2.1 rfl⟩

/-- C10: if `push_anns` must steal on its first round (no class for `hw`, or
the class does not accept the whole remaining batch) and no `block` call was
ever made (`recent_blocks` empty), the default next-height computation
panics on `unwrap`; if at least one block has been recorded, that panic
branch is unreachable for every fuel, store state and memoised height. -/
theorem C10_push_default_height (mkc : Nat → AnnClass) :
    (∀ (m : AnnStoreMut) (hw : HeightWork) (n fuel : Nat),
      m.recent_blocks = [] →
      (∀ c, lookupClass m.classes hw = some c → c.pushN n ≠ n) →
      push_anns mkc (fuel + 1) m hw n = .panicHeight) ∧
    (∀ (fuel : Nat) (m : AnnStoreMut) (hw : HeightWork) (n : Nat) (nbh0 : Option Nat),
      m.recent_blocks ≠ [] →
      push_anns_aux mkc fuel m hw n nbh0 ≠ .panicHeight) := by
  constructor
  · intro m hw n fuel hemp hcls
    have hfit : ∃ nRem, pushFit (lookupClass m.classes hw) n = some nRem := by
      cases hlk : lookupClass m.classes hw with
      | none => exact ⟨n, rfl⟩
      | some c => exact ⟨n - c.pushN n, by simp [pushFit, hcls c hlk]⟩
    obtain ⟨nRem, hfit⟩ := hfit
    have hnh : nextHeightOf m none = none := by simp [nextHeightOf, hemp]
    simp [push_anns, push_anns_aux, hfit, hnh]
  · intro fuel
    induction fuel with
    | zero =>
      intro m hw n nbh0 hne
      simp [push_anns_aux]
    | succ fuel ih =>
      intro m hw n nbh0 hne
      cases hfit : pushFit (lookupClass m.classes hw) n with
      | none => simp [push_anns_aux, hfit]
      | some nRem =>
        have hnh : ∃ h, nextHeightOf m nbh0 = some h := by
          cases nbh0 with
          | some h0 => exact ⟨h0, rfl⟩
          | none =>
            cases hm : (m.recent_blocks.map Prod.fst).max? with
            | none =>
              exact absurd (List.map_eq_nil_iff.mp (List.max?_eq_none_iff.mp hm)) hne
            | some mx =>
              exact ⟨(1 + i32AsU32 mx) % 2 ^ 32, by simp [nextHeightOf, hm]⟩
        obtain ⟨h, hnh⟩ := hnh
        cases hst : stealAux h (m.classes.length + 1) m.classes [] with
        | none => simp [push_anns_aux, hfit, hnh, hst]
        | some pr =>
          obtain ⟨buf, classes1⟩ := pr
          simpa [push_anns_aux, hfit, hnh, hst] using
            ih { m with classes := attachStolen mkc classes1 hw buf } hw nRem (some h) hne

/-- C10 witness: with no recorded block, pushing 3 indexes with no class for
`hwA` panics in the default-height computation; with one recorded block the
same call cannot reach that panic. -/
theorem C10_push_default_height_witness :
    m0.recent_blocks = [] ∧
    push_anns mkcW 1 m0 hwA 3 = .panicHeight ∧
    m1.recent_blocks ≠ [] ∧
    push_anns_aux mkcW 3 m1 hwA 3 none ≠ .panicHeight :=
  ⟨rfl,
   (C10_push_default_height mkcW).1 m0 hwA 3 0 rfl
     (fun c hc => absurd hc (by simp [lookupClass, m0])),
   by simp [m1],
   (C10_push_default_height mkcW).2 3 m1 hwA 3 none (by simp [m1])⟩

theorem finishTbl_some_inv {tblAll : List Entry} {it : List Nat}
    {a : List Entry} {b : List Nat} {c : List Nat}
    (h : finishTbl tblAll it = some (a, b, c)) : a = tblAll ∧ b = it := by
  unfold finishTbl at h
  split at h
  · split_ifs at h
    simp only [Option.some.injEq, Prod.mk.injEq] at h
    exact ⟨h.1.symm, h.2.1.symm⟩
  · cases h

theorem computeCore_some_inv {hp : Entry → Entry → Entry} {db : DataBuf}
    {sorted : List AnnData} {tblAll : List Entry} {it : List Nat} {rh : List Nat}
    (h : computeCore hp db sorted = some (tblAll, it, rh)) :
    dedupScan 0 sorted = some it ∧
    ∃ l1 ls upper,
      mkLeaves db it = l1 :: ls ∧
      (∀ e ∈ l1 :: ls, e.start < e.end_) ∧ 0 < l1.start ∧
      tblAll = sentinelOf l1 :: l1 :: ls ++ upper := by
  unfold computeCore at h
  split at h
  · cases h
  · rename_i it0 hds
    split at h
    · cases h
    · rename_i l1 ls hml
      split_ifs at h with hcond
      split at h
      · cases h
      · rename_i upper hup
        obtain ⟨hta, hit⟩ := finishTbl_some_inv h
        subst hit
        exact ⟨hds, l1, ls, upper, hml, hcond.1, hcond.2, hta⟩

theorem compute_ok_inv {hp : Entry → Entry → Entry} {db : DataBuf} {t : ProofTree}
    {count : Nat} {t2 : ProofTree}
    (hok : ProofTree.compute hp db t count = (.ok, t2)) :
    t.root_hash = none ∧ count ≠ 0 ∧ count ≤ t.capacity ∧
    ∃ tblAll it rh,
      computeCore hp db (sortAnns (t.ann_data.take count)) = some (tblAll, it, rh) ∧
      t2 = { t with
             ann_data := sortAnns (t.ann_data.take count) ++ t.ann_data.drop count,
             index_table := it, tbl := tblAll, root_hash := some rh,
             size := it.length } := by
  unfold ProofTree.compute at hok
  split_ifs at hok with h1 h2 h3
  · simp at hok
  · simp at hok
  · simp at hok
  · split at hok
    · simp at hok
    · rename_i tblAll it rh hcc
      simp only [Prod.mk.injEq] at hok
      exact ⟨Option.not_isSome_iff_eq_none.mp h1, h2, Nat.le_of_not_lt h3,
        tblAll, it, rh, hcc, hok.2.symm⟩

theorem mkLeaves_length (db : DataBuf) : ∀ it : List Nat,
    (mkLeaves db it).length = it.length
  | [] => rfl
  | [_] => rfl
  | m :: m2 :: rest => by
    simpa [mkLeaves] using mkLeaves_length db (m2 :: rest)

theorem mkLeaves_head_start (db : DataBuf) (m : Nat) (rest : List Nat) :
    ∃ l1 ls, mkLeaves db (m :: rest) = l1 :: ls ∧ l1.start = toU64 (db.get_hash m) := by
  cases rest with
  | nil => exact ⟨_, _, rfl, rfl⟩
  | cons m2 r => exact ⟨_, _, rfl, rfl⟩

theorem mkLeaves_chain (db : DataBuf) : ∀ it : List Nat,
    (mkLeaves db it).Chain' fun a b => a.end_ = b.start
  | [] => List.chain'_nil
  | [m] => List.chain'_singleton _
  | m :: m2 :: rest => by
    obtain ⟨l1, ls, heq, hstart⟩ := mkLeaves_head_start db m2 rest
    have ih := mkLeaves_chain db (m2 :: rest)
    have hunf : mkLeaves db (m :: m2 :: rest) =
        leafOf db m m2 :: mkLeaves db (m2 :: rest) := rfl
    rw [hunf, heq, List.chain'_cons]
    rw [heq] at ih
    exact ⟨hstart.symm, ih⟩

theorem mkLeaves_getLast_end (db : DataBuf) : ∀ it : List Nat, it ≠ [] →
    (mkLeaves db it).getLast?.map Entry.end_ = some U64MAX
  | [], h => absurd rfl h
  | [_], _ => rfl
  | m :: m2 :: rest, _ => by
    have ih := mkLeaves_getLast_end db (m2 :: rest) (by simp)
    obtain ⟨l1, ls, heq, _⟩ := mkLeaves_head_start db m2 rest
    have hunf : mkLeaves db (m :: m2 :: rest) =
        leafOf db m m2 :: mkLeaves db (m2 :: rest) := rfl
    rw [hunf, heq, List.getLast?_cons_cons, ← heq]
    exact ih

theorem dedupScan_count : ∀ (l : List AnnData) (last : Nat),
    l.Sorted annLE → (∀ x ∈ l, last ≤ x.hash_pfx) →
    ∃ ms, dedupScan last l = some ms ∧
      ms.length = ((l.map AnnData.hash_pfx).toFinset.filter fun p => last < p).card := by
  intro l
  induction l with
  | nil =>
    intro last _ _
    exact ⟨[], rfl, by simp⟩
  | cons d ds ih =>
    intro last hs hge
    have hs' : ds.Sorted annLE := (List.sorted_cons.mp hs).2
    have hd : ∀ x ∈ ds, annLE d x := (List.sorted_cons.mp hs).1
    by_cases h1 : d.hash_pfx = last
    · obtain ⟨ms, hms, hlen⟩ := ih last hs' fun x hx => h1 ▸ hd x hx
      refine ⟨ms, by simp [dedupScan, h1, hms], ?_⟩
      rw [hlen, List.map_cons, List.toFinset_cons, Finset.filter_insert,
        if_neg (by omega)]
    · have hlt : last < d.hash_pfx :=
        Nat.lt_of_le_of_ne (hge d (List.mem_cons_self d ds)) fun e => h1 e.symm
      obtain ⟨ms, hms, hlen⟩ := ih d.hash_pfx hs' fun x hx => hd x hx
      refine ⟨d.mloc :: ms, ?_, ?_⟩
      · simp [dedupScan, h1, Nat.not_lt.mpr (Nat.le_of_lt hlt), hms]
      · have hSge : ∀ x ∈ (ds.map AnnData.hash_pfx).toFinset, d.hash_pfx ≤ x := by
          intro x hx
          obtain ⟨y, hy, rfl⟩ := List.mem_map.mp (List.mem_toFinset.mp hx)
          exact hd y hy
        have hfe : ((ds.map AnnData.hash_pfx).toFinset.filter fun p => d.hash_pfx < p) =
            (ds.map AnnData.hash_pfx).toFinset.erase d.hash_pfx := by
          ext x
          simp only [Finset.mem_filter, Finset.mem_erase]
          constructor
          · rintro ⟨hx, hlt2⟩
            exact ⟨by omega, hx⟩
          · rintro ⟨hne, hx⟩
            exact ⟨hx, Nat.lt_of_le_of_ne (hSge x hx) (Ne.symm hne)⟩
        have hfl : (((d :: ds).map AnnData.hash_pfx).toFinset.filter fun p => last < p) =
            insert d.hash_pfx (ds.map AnnData.hash_pfx).toFinset := by
          rw [List.map_cons, List.toFinset_cons]
          refine Finset.filter_true_of_mem ?_
          intro x hx
          rcases Finset.mem_insert.mp hx with rfl | hx'
          · exact hlt
          · exact Nat.lt_of_lt_of_le hlt (hSge x hx')
        rw [hfl, List.length_cons, hlen, hfe]
        by_cases hmem : d.hash_pfx ∈ (ds.map AnnData.hash_pfx).toFinset
        · have hcard := Finset.card_erase_of_mem hmem
          have hpos : 0 < (ds.map AnnData.hash_pfx).toFinset.card :=
            Finset.card_pos.mpr ⟨d.hash_pfx, hmem⟩
          rw [Finset.insert_eq_self.mpr hmem, hcard]
          omega
        · rw [Finset.erase_eq_of_not_mem hmem, Finset.card_insert_of_not_mem hmem]

/-- C2 counterexample: on the concrete input with prefixes 0 and 5,
`compute` succeeds with `size = 1`, but the number of distinct 64-bit
prefixes among the first two announcements is 2: the scan's initial
previous-prefix is the zero sentinel's 0, so the prefix-0 announcement is
dropped, refuting the claim's "size equals the number of distinct 64-bit
prefixes". -/
theorem C2_distinct_count_counterexample :
    (ProofTree.compute hpPair dbZero tZ 2).1 = .ok ∧
    (ProofTree.compute hpPair dbZero tZ 2).2.size = 1 ∧
    ((tZ.ann_data.take 2).map AnnData.hash_pfx).toFinset.card = 2 ∧
    ¬ (ProofTree.compute hpPair dbZero tZ 2).2.size =
        ((tZ.ann_data.take 2).map AnnData.hash_pfx).toFinset.card := by
  refine ⟨by decide, by decide, by decide, by decide⟩

/-- The size delivered by a successful `compute` is the number of distinct
nonzero 64-bit prefixes among the first `count` announcements. -/
theorem compute_size_card {hp : Entry → Entry → Entry} {db : DataBuf} {t : ProofTree}
    {count : Nat} {t2 : ProofTree}
    (hok : ProofTree.compute hp db t count = (.ok, t2)) :
    t2.size =
      (((t.ann_data.take count).map AnnData.hash_pfx).toFinset.filter
        fun p => 0 < p).card := by
  obtain ⟨-, -, -, tblAll, it, rh, hcc, ht2⟩ := compute_ok_inv hok
  obtain ⟨hds, -⟩ := computeCore_some_inv hcc
  obtain ⟨ms, hms, hlen⟩ := dedupScan_count (sortAnns (t.ann_data.take count)) 0
    (List.sorted_insertionSort annLE _) (fun x _ => Nat.zero_le _)
  rw [hds] at hms
  have hit : it = ms := by injection hms
  subst ht2
  show it.length = _
  rw [hit, hlen]
  congr 1
  have hperm : List.Perm ((sortAnns (t.ann_data.take count)).map AnnData.hash_pfx)
      ((t.ann_data.take count).map AnnData.hash_pfx) :=
    (List.perm_insertionSort annLE _).map AnnData.hash_pfx
  rw [List.toFinset_eq_of_perm _ _ hperm]

/-- C2 (amended): for every input where `compute(count)` succeeds, `size` is
the number of surviving announcements (the index-table length, zero sentinel
excluded), and equals the number of distinct NONZERO 64-bit prefixes among
the first `count` announcements (the dedup scan's previous-prefix starts at
the zero sentinel's prefix 0, so prefix-0 announcements are dropped too;
for k announcements sharing one nonzero prefix only one survives). -/
theorem C2_dedup_size (hp : Entry → Entry → Entry) (db : DataBuf) (t : ProofTree)
    (count : Nat) (t2 : ProofTree)
    (hok : ProofTree.compute hp db t count = (.ok, t2)) :
    t2.size = t2.index_table.length ∧
    t2.size =
      (((t.ann_data.take count).map AnnData.hash_pfx).toFinset.filter
        fun p => 0 < p).card := by
  refine ⟨?_, compute_size_card hok⟩
  obtain ⟨-, -, -, tblAll, it, rh, hcc, ht2⟩ := compute_ok_inv hok
  subst ht2
  rfl

/-- C2 witness: the amended theorem applied to the concrete tree `tA`
(prefixes 1 and 2, both nonzero and distinct), whose compute succeeds with
size 2. -/
theorem C2_dedup_size_witness :
    ProofTree.compute hpPair dbLin tA 2 = (.ok, tA2) ∧
    tA2.size = tA2.index_table.length ∧
    tA2.size =
      (((tA.ann_data.take 2).map AnnData.hash_pfx).toFinset.filter fun p => 0 < p).card :=
  ⟨rfl, (C2_dedup_size hpPair dbLin tA 2 tA2 rfl).1,
    (C2_dedup_size hpPair dbLin tA 2 tA2 rfl).2⟩

/-- C4 counterexample: after a successful compute with three leaves
(sentinel + two survivors) the entry table contains the all-ones padding
entry `FFF_ENTRY`, whose interval is collapsed (`start = end = u64::MAX`),
so "every ProofTree entry satisfies end > start" is false. -/
theorem C4_fff_counterexample :
    (ProofTree.compute hpPair dbLin tA 2).1 = .ok ∧
    FFF_ENTRY ∈ (ProofTree.compute hpPair dbLin tA 2).2.tbl ∧
    ¬ FFF_ENTRY.start < FFF_ENTRY.end_ := by
  refine ⟨by decide, by decide, by decide⟩

/-- C4 (amended): after a successful compute, the zero sentinel and the
surviving leaf entries (the first `index_table.length + 1` table entries)
each satisfy `end > start` and tile the prefix space consecutively with no
gaps or overlaps: the sentinel starts at 0, each entry's end equals the next
entry's start, and the last leaf's end is `u64::MAX = 2^64 - 1` (so they
partition `[0, 2^64 - 1)`; the all-ones padding entries appended to odd
layers have `start = end = u64::MAX`). -/
theorem C4_leaf_partition (hp : Entry → Entry → Entry) (db : DataBuf) (t : ProofTree)
    (count : Nat) (t2 : ProofTree)
    (hok : ProofTree.compute hp db t count = (.ok, t2)) :
    (∀ e ∈ t2.tbl.take (t2.index_table.length + 1), e.start < e.end_) ∧
    (t2.tbl.take (t2.index_table.length + 1)).Chain' (fun a b => a.end_ = b.start) ∧
    (t2.tbl.take (t2.index_table.length + 1)).head?.map Entry.start = some 0 ∧
    (t2.tbl.take (t2.index_table.length + 1)).getLast?.map Entry.end_ = some U64MAX := by
  obtain ⟨-, -, -, tblAll, it, rh, hcc, ht2⟩ := compute_ok_inv hok
  obtain ⟨hds, l1, ls, upper, hml, hall, hpos, htbl⟩ := computeCore_some_inv hcc
  subst ht2
  have hlen : (l1 :: ls).length = it.length := by
    rw [← hml, mkLeaves_length]
  have hitne : it ≠ [] := by
    intro h
    rw [h] at hlen
    simp at hlen
  have htake : tblAll.take (it.length + 1) = sentinelOf l1 :: l1 :: ls := by
    rw [htbl]
    show sentinelOf l1 :: ((l1 :: ls) ++ upper).take it.length = sentinelOf l1 :: l1 :: ls
    rw [List.take_left' hlen]
  dsimp only
  rw [htake]
  refine ⟨?_, ?_, ?_, ?_⟩
  · intro e he
    rcases List.mem_cons.mp he with rfl | he'
    · exact hpos
    · exact hall e he'
  · rw [List.chain'_cons]
    refine ⟨rfl, ?_⟩
    rw [← hml]
    exact mkLeaves_chain db it
  · rfl
  · rw [List.getLast?_cons_cons, ← hml]
    exact mkLeaves_getLast_end db it hitne

/-- C4 witness: the amended partition theorem applied to the concrete
successful compute on `tA`. -/
theorem C4_leaf_partition_witness :
    ProofTree.compute hpPair dbLin tA 2 = (.ok, tA2) ∧
    ((∀ e ∈ tA2.tbl.take (tA2.index_table.length + 1), e.start < e.end_) ∧
     (tA2.tbl.take (tA2.index_table.length + 1)).Chain' (fun a b => a.end_ = b.start) ∧
     (tA2.tbl.take (tA2.index_table.length + 1)).head?.map Entry.start = some 0 ∧
     (tA2.tbl.take (tA2.index_table.length + 1)).getLast?.map Entry.end_ = some U64MAX) :=
  ⟨rfl, C4_leaf_partition hpPair dbLin tA 2 tA2 rfl⟩

theorem sortAnns_eq_of_perm_distinct {l1 l2 : List AnnData}
    (hperm : List.Perm l1 l2)
    (hdist : l2.Pairwise fun a b => a.hash_pfx ≠ b.hash_pfx) :
    sortAnns l1 = sortAnns l2 := by
  have hanti : IsAntisymm AnnData fun a b => a.hash_pfx < b.hash_pfx :=
    ⟨fun a b hab hba => absurd hba (Nat.lt_asymm hab)⟩
  have hp1 : List.Perm (sortAnns l1) l2 :=
    (List.perm_insertionSort annLE l1).trans hperm
  have hp2 : List.Perm (sortAnns l2) l2 := List.perm_insertionSort annLE l2
  have hd1 : (sortAnns l1).Pairwise fun a b => a.hash_pfx ≠ b.hash_pfx :=
    (List.Perm.pairwise_iff (fun h => Ne.symm h) hp1).mpr hdist
  have hd2 : (sortAnns l2).Pairwise fun a b => a.hash_pfx ≠ b.hash_pfx :=
    (List.Perm.pairwise_iff (fun h => Ne.symm h) hp2).mpr hdist
  have hs1 : (sortAnns l1).Sorted fun a b => a.hash_pfx < b.hash_pfx :=
    List.Pairwise.imp (fun h => Nat.lt_of_le_of_ne h.1 h.2)
      ((List.sorted_insertionSort annLE l1).and hd1)
  have hs2 : (sortAnns l2).Sorted fun a b => a.hash_pfx < b.hash_pfx :=
    List.Pairwise.imp (fun h => Nat.lt_of_le_of_ne h.1 h.2)
      ((List.sorted_insertionSort annLE l2).and hd2)
  exact @List.eq_of_perm_of_sorted _ _ hanti _ _ (hp1.trans hp2.symm) hs1 hs2

theorem compute_eq_ok {hp : Entry → Entry → Entry} {db : DataBuf} {t : ProofTree}
    {count : Nat} {tblAll : List Entry} {it : List Nat} {rh : List Nat}
    (hrn : t.root_hash = none) (hc0 : count ≠ 0) (hcap : count ≤ t.capacity)
    (hcc : computeCore hp db (sortAnns (t.ann_data.take count)) = some (tblAll, it, rh)) :
    ProofTree.compute hp db t count =
      (.ok, { t with
              ann_data := sortAnns (t.ann_data.take count) ++ t.ann_data.drop count,
              index_table := it, tbl := tblAll, root_hash := some rh,
              size := it.length }) := by
  unfold ProofTree.compute
  rw [if_neg (by simp [hrn]), if_neg hc0, if_neg (Nat.not_lt.mpr hcap), hcc]

theorem compute_reset_compute {hp : Entry → Entry → Entry} {db : DataBuf}
    {t : ProofTree} {count : Nat} {t1 : ProofTree}
    (hlen : t.ann_data.length = t.capacity)
    (hok : ProofTree.compute hp db t count = (.ok, t1)) :
    ∃ t2, ProofTree.compute hp db t1.reset count = (.ok, t2) ∧
      t2.root_hash = t1.root_hash ∧ t2.size = t1.size := by
  obtain ⟨hrn, hc0, hcap, tblAll, it, rh, hcc, ht1⟩ := compute_ok_inv hok
  have hcount : count ≤ t.ann_data.length := hlen ▸ hcap
  have hslen : (sortAnns (t.ann_data.take count)).length = count := by
    rw [sortAnns, List.length_insertionSort, List.length_take]
    omega
  have htk : (t1.reset).ann_data.take count = sortAnns (t.ann_data.take count) := by
    rw [ht1]
    exact List.take_left' hslen
  have hdr : (t1.reset).ann_data.drop count = t.ann_data.drop count := by
    rw [ht1]
    exact List.drop_left' hslen
  have hsid : sortAnns (sortAnns (t.ann_data.take count)) =
      sortAnns (t.ann_data.take count) :=
    List.Sorted.insertionSort_eq (List.sorted_insertionSort annLE _)
  have hcc2 : computeCore hp db (sortAnns ((t1.reset).ann_data.take count)) =
      some (tblAll, it, rh) := by
    rw [htk, hsid]
    exact hcc
  have hrn2 : (t1.reset).root_hash = none := by
    rw [ht1]
    rfl
  have hcap2 : count ≤ (t1.reset).capacity := by
    rw [ht1]
    exact hcap
  refine ⟨_, compute_eq_ok hrn2 hc0 hcap2 hcc2, ?_, ?_⟩
  · rw [ht1]
  · rw [ht1]

theorem compute_perm_size {hp : Entry → Entry → Entry} {db : DataBuf}
    {t : ProofTree} {count : Nat} {p : List AnnData} {t1 t2 : ProofTree}
    (hlen : t.ann_data.length = t.capacity)
    (hperm : List.Perm p (t.ann_data.take count))
    (hok1 : ProofTree.compute hp db t count = (.ok, t1))
    (hok2 : ProofTree.compute hp db { t with ann_data := p ++ t.ann_data.drop count }
      count = (.ok, t2)) :
    t2.size = t1.size := by
  obtain ⟨-, -, hcap, -, -, -, -, -⟩ := compute_ok_inv hok1
  have hcount : count ≤ t.ann_data.length := hlen ▸ hcap
  have hplen : p.length = count := by
    have hq := hperm.length_eq
    rw [List.length_take] at hq
    omega
  have htk2 : (p ++ t.ann_data.drop count).take count = p := List.take_left' hplen
  rw [compute_size_card hok1, compute_size_card hok2]
  show (((( { t with ann_data := p ++ t.ann_data.drop count } : ProofTree).ann_data.take
    count).map AnnData.hash_pfx).toFinset.filter fun q => 0 < q).card = _
  rw [show ({ t with ann_data := p ++ t.ann_data.drop count } : ProofTree).ann_data =
    p ++ t.ann_data.drop count from rfl, htk2,
    List.toFinset_eq_of_perm _ _ (hperm.map AnnData.hash_pfx)]

theorem compute_perm_distinct {hp : Entry → Entry → Entry} {db : DataBuf}
    {t : ProofTree} {count : Nat} {p : List AnnData}
    (hlen : t.ann_data.length = t.capacity) (hcap : count ≤ t.capacity)
    (hperm : List.Perm p (t.ann_data.take count))
    (hdist : (t.ann_data.take count).Pairwise fun a b => a.hash_pfx ≠ b.hash_pfx) :
    (ProofTree.compute hp db { t with ann_data := p ++ t.ann_data.drop count } count).1 =
      (ProofTree.compute hp db t count).1 ∧
    (ProofTree.compute hp db { t with ann_data := p ++ t.ann_data.drop count }
      count).2.root_hash = (ProofTree.compute hp db t count).2.root_hash ∧
    (ProofTree.compute hp db { t with ann_data := p ++ t.ann_data.drop count }
      count).2.size = (ProofTree.compute hp db t count).2.size := by
  have hcount : count ≤ t.ann_data.length := hlen ▸ hcap
  have hplen : p.length = count := by
    have hq := hperm.length_eq
    rw [List.length_take] at hq
    omega
  have htk : (p ++ t.ann_data.drop count).take count = p := List.take_left' hplen
  have hdr : (p ++ t.ann_data.drop count).drop count = t.ann_data.drop count :=
    List.drop_left' hplen
  have hsa : sortAnns p = sortAnns (t.ann_data.take count) :=
    sortAnns_eq_of_perm_distinct hperm hdist
  unfold ProofTree.compute
  dsimp only
  rw [htk, hdr, hsa]
  split_ifs with h1 h2 h3
  · exact ⟨rfl, rfl, rfl⟩
  · exact ⟨rfl, rfl, rfl⟩
  · exact ⟨rfl, rfl, rfl⟩
  · cases hcc : computeCore hp db (sortAnns (t.ann_data.take count)) with
    | none => exact ⟨rfl, rfl, rfl⟩
    | some v =>
      obtain ⟨a, b, c⟩ := v
      exact ⟨rfl, rfl, rfl⟩

/-- C6 counterexample: two announcements share 64-bit prefix 7 but have
different full hashes; permuting them changes which one survives the dedup,
and the computed root hash differs, refuting order-insensitivity of
`root_hash` as the claim states it for every valid input. -/
theorem C6_perm_root_counterexample :
    List.Perm tCp.ann_data tC.ann_data ∧
    (ProofTree.compute hpPair dbCollide tC 2).1 = .ok ∧
    (ProofTree.compute hpPair dbCollide tCp 2).1 = .ok ∧
    (ProofTree.compute hpPair dbCollide tCp 2).2.root_hash ≠
      (ProofTree.compute hpPair dbCollide tC 2).2.root_hash := by
  refine ⟨by decide, by decide, by decide, by decide⟩

/-- C6 (amended): (a) `compute; reset; compute` on identical input yields
the same `root_hash` and `size`; (b) permuting the first `count`
announcements preserves `size` whenever both runs succeed; (c) when the
first `count` announcements have pairwise distinct 64-bit prefixes,
permuting them yields the same outcome (status, `root_hash` and `size`).
With duplicate prefixes the surviving announcement, hence the root hash,
can depend on the input order. -/
theorem C6_determinism (hp : Entry → Entry → Entry) (db : DataBuf) (t : ProofTree)
    (count : Nat) (p : List AnnData)
    (hlen : t.ann_data.length = t.capacity) (hcap : count ≤ t.capacity)
    (hperm : List.Perm p (t.ann_data.take count)) :
    (∀ t1, ProofTree.compute hp db t count = (.ok, t1) →
      ∃ t2, ProofTree.compute hp db t1.reset count = (.ok, t2) ∧
        t2.root_hash = t1.root_hash ∧ t2.size = t1.size) ∧
    (∀ t1 t2, ProofTree.compute hp db t count = (.ok, t1) →
      ProofTree.compute hp db { t with ann_data := p ++ t.ann_data.drop count }
        count = (.ok, t2) →
      t2.size = t1.size) ∧
    ((t.ann_data.take count).Pairwise (fun a b => a.hash_pfx ≠ b.hash_pfx) →
      (ProofTree.compute hp db { t with ann_data := p ++ t.ann_data.drop count }
        count).1 = (ProofTree.compute hp db t count).1 ∧
      (ProofTree.compute hp db { t with ann_data := p ++ t.ann_data.drop count }
        count).2.root_hash = (ProofTree.compute hp db t count).2.root_hash ∧
      (ProofTree.compute hp db { t with ann_data := p ++ t.ann_data.drop count }
        count).2.size = (ProofTree.compute hp db t count).2.size) :=
  ⟨fun _ hok => compute_reset_compute hlen hok,
   fun _ _ hok1 hok2 => compute_perm_size hlen hperm hok1 hok2,
   fun hdist => compute_perm_distinct hlen hcap hperm hdist⟩

/-- C6 witness: the theorem applied to the concrete tree `tA` (prefixes 1
and 2, distinct) and the swapped order, via its distinct-prefix part. -/
theorem C6_determinism_witness :
    (tA.ann_data.length = tA.capacity ∧ 2 ≤ tA.capacity ∧
      List.Perm [(⟨2, 1⟩ : AnnData), ⟨1, 0⟩] (tA.ann_data.take 2)) ∧
    (ProofTree.compute hpPair dbLin
        { tA with ann_data := [⟨2, 1⟩, ⟨1, 0⟩] ++ tA.ann_data.drop 2 } 2).1 =
      (ProofTree.compute hpPair dbLin tA 2).1 ∧
    (ProofTree.compute hpPair dbLin
        { tA with ann_data := [⟨2, 1⟩, ⟨1, 0⟩] ++ tA.ann_data.drop 2 } 2).2.root_hash =
      (ProofTree.compute hpPair dbLin tA 2).2.root_hash ∧
    (ProofTree.compute hpPair dbLin
        { tA with ann_data := [⟨2, 1⟩, ⟨1, 0⟩] ++ tA.ann_data.drop 2 } 2).2.size =
      (ProofTree.compute hpPair dbLin tA 2).2.size :=
  ⟨⟨rfl, by decide, by decide⟩,
   (C6_determinism hpPair dbLin tA 2 [⟨2, 1⟩, ⟨1, 0⟩] rfl (by decide)
     (by decide)).2.2 (by decide)⟩

end Packetcrypt
